import Mathlib

/-!
Verification development for MCPT_BARS.CPP: a Monte-Carlo permutation test
driver built from a Marsaglia MWC256 random generator, a relative-move bar
permutation engine, and a grid-search rule optimizer.  C doubles are modeled
as exact rationals; machine 32-bit unsigned arithmetic is modeled on Nat with
explicit reduction mod 2 ^ 32.
-/

namespace MCPTBars

/-! ## Random generator (MCPT_BARS.CPP lines 37-72) -/

/-- Full mutable state of the MWC256 generator: the 256-word table Q, the
carry word, the cyclic index (the static local variable i of RAND32M), the
lazy table-fill flag MWC256_initialized, and the pending seed MWC256_seed. -/
structure MWCState where
  Q : List Nat
  carry : Nat
  idx : Nat
  inited : Bool
  seed : Nat
deriving DecidableEq

/-- Program-start state of the generator: the table has static storage (all
zero), carry = 362436, the static index i = 255, the table not yet filled,
and the default seed 123456789. -/
def initialState : MWCState :=
  ⟨List.replicate 256 0, 362436, 255, false, 123456789⟩

/-- One step of the linear congruential fill j = 69069 * j + 12345, which in C
overflows doing an automatic mod 2 ^ 32 (line 56). -/
def lcgStep (j : Nat) : Nat := (69069 * j + 12345) % 2 ^ 32

/-- Table fill performed on first use after (re)seeding: Q[k] holds the
(k+1)-st iterate of the congruential step applied to the seed (lines 52-59). -/
def initQ (seed : Nat) : List Nat :=
  (List.range 256).map fun k => lcgStep^[k + 1] seed

/-- RAND32M_seed (lines 41-44): store the seed and clear the fill flag.  The
carry and the static index are NOT reset. -/
def RAND32M_seed (iseed : Nat) (st : MWCState) : MWCState :=
  { st with seed := iseed, inited := false }

/-- RAND32M (lines 46-65): lazily fill the table, advance the cyclic index,
form the 64-bit product t = 809430660 * Q[i] + carry, split t into the new
carry (high 32 bits) and the new table word (low 32 bits), and return the new
table word. -/
def RAND32M (st : MWCState) : Nat × MWCState :=
  let st1 := if st.inited then st else { st with Q := initQ st.seed, inited := true }
  let i := (st1.idx + 1) % 256
  let t := 809430660 * st1.Q.getD i 0 + st1.carry
  let q := t % 2 ^ 32
  (q, { st1 with Q := st1.Q.set i q, carry := t / 2 ^ 32, idx := i })

/-- Sequence of successive RAND32M outputs starting from a given state. -/
def outSeq : MWCState → Nat → Nat
  | st, 0 => (RAND32M st).1
  | st, n + 1 => outSeq (RAND32M st).2 n

/-- Value returned by unifrand for a given raw 32-bit draw (lines 68-72):
mult * n with mult = 1 / 0xFFFFFFFF, modeled in exact rational arithmetic. -/
def unifrand_val (n : Nat) : ℚ := (1 / (0xFFFFFFFF : ℚ)) * n

/-- unifrand (lines 68-72): draw from RAND32M and scale by 1 / 0xFFFFFFFF. -/
def unifrand (st : MWCState) : ℚ × MWCState :=
  let r := RAND32M st
  (unifrand_val r.1, r.2)

/-- Drawing from an unfilled state first fills the table, so the stale table
contents are irrelevant. -/
lemma RAND32M_not_inited (Q1 Q2 : List Nat) (c i s : Nat) :
    RAND32M ⟨Q1, c, i, false, s⟩ = RAND32M ⟨Q2, c, i, false, s⟩ := by
  simp [RAND32M]

/-- Raw RAND32M outputs are reduced mod 2 ^ 32. -/
lemma RAND32M_fst_lt (st : MWCState) : (RAND32M st).1 < 2 ^ 32 := by
  simp only [RAND32M]
  exact Nat.mod_lt _ (by norm_num)

/-- C5 (amended): a freshly constructed generator state (carry 362436, static
index 255, table not yet filled) produces an output sequence that depends only
on the seed: the stale table contents are overwritten by the lazy fill, so two
independent instances constructed with the same seed produce bit-identical
RAND32M output sequences. -/
theorem rand32m_fresh_seed_deterministic (Q1 Q2 : List Nat) (s n : Nat) :
    outSeq ⟨Q1, 362436, 255, false, s⟩ n = outSeq ⟨Q2, 362436, 255, false, s⟩ n := by
  have h := RAND32M_not_inited Q1 Q2 362436 255 s
  cases n with
  | zero => simp only [outSeq, h]
  | succ n => simp only [outSeq, h]

/-- C5 (counterexample): reseeding with the same seed after one prior draw
does not reproduce the original sequence, because RAND32M_seed resets neither
the carry nor the static index.  The first output of a freshly seeded stream
(3894166764) differs from the first output drawn after reseeding that stream
with the very same seed (1524314850). -/
theorem rand32m_reseed_not_deterministic :
    outSeq (RAND32M_seed 123456789 initialState) 0 ≠
      outSeq (RAND32M_seed 123456789
        (RAND32M (RAND32M_seed 123456789 initialState)).2) 0 := by
  decide

/-- C6 (amended): every unifrand value lies in the closed interval [0, 1];
the value 1 is attained exactly when the raw draw is the maximal 32-bit word
0xFFFFFFFF, and for every smaller draw the value is strictly below 1. -/
theorem unifrand_range (st : MWCState) :
    0 ≤ (unifrand st).1 ∧ (unifrand st).1 ≤ 1 ∧
      ((unifrand st).1 = 1 ↔ (RAND32M st).1 = 0xFFFFFFFF) := by
  have hlt : (RAND32M st).1 < 2 ^ 32 := RAND32M_fst_lt st
  have hle : ((RAND32M st).1 : ℚ) ≤ (0xFFFFFFFF : ℚ) := by
    have h1 : (RAND32M st).1 ≤ 0xFFFFFFFF := by omega
    exact_mod_cast h1
  have hval : (unifrand st).1 = (1 / (0xFFFFFFFF : ℚ)) * (RAND32M st).1 := rfl
  rw [hval]
  refine ⟨by positivity, ?_, ?_⟩
  · calc (1 / (0xFFFFFFFF : ℚ)) * (RAND32M st).1
        ≤ (1 / (0xFFFFFFFF : ℚ)) * (0xFFFFFFFF : ℚ) := by
          apply mul_le_mul_of_nonneg_left hle; positivity
      _ = 1 := by norm_num
  · constructor
    · intro h
      have h2 : ((RAND32M st).1 : ℚ) = (0xFFFFFFFF : ℚ) := by
        field_simp at h
        exact_mod_cast h
      exact_mod_cast h2
    · intro h
      rw [h]
      norm_num

/-- C6 (counterexample): at the maximal 32-bit draw 0xFFFFFFFF the unifrand
quotient equals exactly 1, so it is not strictly below 1; moreover that draw
is produced by a legitimate generator state (table word 0xFFFFFFFF with carry
809430659), at which unifrand returns exactly 1, outside [0, 1). -/
theorem unifrand_one_at_max :
    ¬ unifrand_val 0xFFFFFFFF < 1 ∧
      (unifrand ⟨[0xFFFFFFFF], 809430659, 255, true, 0⟩).1 = 1 := by
  constructor
  · norm_num [unifrand_val]
  · norm_num [unifrand, unifrand_val, RAND32M]

/-! ## Permutation engine (MCPT_BARS.CPP lines 161-242) -/

/-- One price bar of natural-log open, high, low and close. -/
structure Bar where
  bopen : ℚ
  bhigh : ℚ
  blow : ℚ
  bclose : ℚ
deriving DecidableEq

instance : Inhabited Bar := ⟨⟨0, 0, 0, 0⟩⟩

/-- The four parallel work arrays of relative moves. -/
structure Rels where
  rel_open : List ℚ
  rel_high : List ℚ
  rel_low : List ℚ
  rel_close : List ℚ
deriving DecidableEq

/-- prepare_permute (lines 161-181): for every bar from index 1 on, record the
close-to-open change against the close of the preceding bar (cprev) and the
three intrabar changes against the own open of the bar. -/
def prepare_permute (cprev : ℚ) : List Bar → Rels
  | [] => ⟨[], [], [], []⟩
  | b :: bs =>
    let r := prepare_permute b.bclose bs
    ⟨(b.bopen - cprev) :: r.rel_open, (b.bhigh - b.bopen) :: r.rel_high,
     (b.blow - b.bopen) :: r.rel_low, (b.bclose - b.bopen) :: r.rel_close⟩

/-- Exchange of the elements at positions i and j, exactly the three-statement
swap through dtemp used by both shuffle loops. -/
def swapIdx {α : Type} [Inhabited α] (a : List α) (i j : ℕ) : List α :=
  (a.set i (a.getD j default)).set j (a.getD i default)

/-- Fisher-Yates style reduction loop of do_permute (lines 204-213): while at
least 2 elements remain, draw a raw index, clamp it below the remaining count
as the source does, decrement the count, and swap the element at the count
position (plus offset) with the drawn position (plus offset).  The raw draws
coming from (int)(unifrand()*i) are abstracted as an arbitrary sequence js of
naturals, a superset of the values the generator can produce; the clamp keeps
every used index below the pre-decrement count exactly as in the source. -/
def fyLoop {α : Type} [Inhabited α] (js : ℕ → ℕ) (off : ℕ) : ℕ → ℕ → List α → List α
  | _, 0, a => a
  | _, 1, a => a
  | k, m + 2, a =>
    let jr := js k
    let j := if m + 2 ≤ jr then m + 1 else jr
    fyLoop js off (k + 1) (m + 1) (swapIdx a (m + 1 + off) (j + off))

/-- Intrabar-move shuffle loop (lines 217-232): a single loop swaps rel_high,
rel_low and rel_close at the same pair of positions, so the triplet belonging
to one bar travels as a unit.  No offset is applied to the positions. -/
def fyLoop3 (js : ℕ → ℕ) :
    ℕ → ℕ → List ℚ × List ℚ × List ℚ → List ℚ × List ℚ × List ℚ
  | _, 0, t => t
  | _, 1, t => t
  | k, m + 2, (h, l, c) =>
    let jr := js k
    let j := if m + 2 ≤ jr then m + 1 else jr
    fyLoop3 js (k + 1) (m + 1) (swapIdx h (m + 1) j, swapIdx l (m + 1) j, swapIdx c (m + 1) j)

/-- Price rebuild phase of do_permute (lines 236-241): each successive bar
takes its open from the close of the previous rebuilt bar plus the shuffled
close-to-open change, and its high, low and close from that open plus the
shuffled intrabar changes. -/
def rebuildBars (cprev : ℚ) : List ℚ → List ℚ → List ℚ → List ℚ → List Bar
  | ro :: ros, rh :: rhs, rl :: rls, rc :: rcs =>
    let o := cprev + ro
    ⟨o, o + rh, o + rl, o + rc⟩ :: rebuildBars (o + rc) ros rhs rls rcs
  | _, _, _, _ => []

/-- do_permute (lines 183-242) on a window of nc bars: shuffle the
close-to-open changes over nc-1-preserve_OO elements starting at offset
preserve_OO, shuffle the intrabar triplets over the same count but starting
at offset 0, then rebuild all prices from bar 1 on; bar 0 of the window is
never written.  The two loops consume the draw sequence js in order. -/
def do_permute (nc : ℕ) (preserve_OO : Bool) (bars : List Bar) (r : Rels)
    (js : ℕ → ℕ) : List Bar × Rels :=
  let p := if preserve_OO then 1 else 0
  let n := nc - 1 - p
  let ro := fyLoop js p 0 n r.rel_open
  let t := fyLoop3 (fun k => js (n - 1 + k)) 0 n (r.rel_high, r.rel_low, r.rel_close)
  let b0 := bars.headD default
  (b0 :: rebuildBars b0.bclose ro t.1 t.2.1 t.2.2, ⟨ro, t.1, t.2.1, t.2.2⟩)

/-- Triplet zip of the three intrabar-move arrays. -/
def zip3 : List ℚ → List ℚ → List ℚ → List (ℚ × ℚ × ℚ)
  | a :: as, b :: bs, c :: cs => (a, b, c) :: zip3 as bs cs
  | _, _, _ => []

/-! ## Shuffle lemmas -/

lemma length_swapIdx {α : Type} [Inhabited α] (a : List α) (i j : ℕ) :
    (swapIdx a i j).length = a.length := by
  simp [swapIdx]

lemma getD_swapIdx_ne {α : Type} [Inhabited α] (a : List α) (i j p : ℕ)
    (hi : p ≠ i) (hj : p ≠ j) (d : α) :
    (swapIdx a i j).getD p d = a.getD p d := by
  simp only [swapIdx, List.getD_eq_getElem?_getD]
  rw [List.getElem?_set_ne (fun h => hj h.symm), List.getElem?_set_ne (fun h => hi h.symm)]

lemma cons_set_perm {α : Type} [Inhabited α] :
    ∀ (xs : List α) (m : ℕ) (x : α), m < xs.length →
      List.Perm (xs.getD m default :: xs.set m x) (x :: xs)
  | y :: ys, 0, x, _ => by
    simpa using List.Perm.swap x y ys
  | y :: ys, m + 1, x, h => by
    have ih := cons_set_perm ys m x (by simpa using h)
    have e : (y :: ys).set (m + 1) x = y :: ys.set m x := by simp
    rw [e]
    exact ((List.Perm.swap y _ _).trans (ih.cons y)).trans (List.Perm.swap x y ys)

lemma swapIdx_perm {α : Type} [Inhabited α] :
    ∀ (a : List α) (i j : ℕ), i < a.length → j < a.length → List.Perm (swapIdx a i j) a
  | x :: xs, 0, 0, _, _ => by
    simp [swapIdx]
  | x :: xs, 0, j + 1, _, hj => by
    have : swapIdx (x :: xs) 0 (j + 1) = xs.getD j default :: xs.set j x := by
      simp [swapIdx]
    rw [this]
    exact cons_set_perm xs j x (by simpa using hj)
  | x :: xs, i + 1, 0, hi, _ => by
    have : swapIdx (x :: xs) (i + 1) 0 = xs.getD i default :: xs.set i x := by
      simp [swapIdx]
    rw [this]
    exact cons_set_perm xs i x (by simpa using hi)
  | x :: xs, i + 1, j + 1, hi, hj => by
    have : swapIdx (x :: xs) (i + 1) (j + 1) = x :: swapIdx xs i j := by
      simp [swapIdx]
    rw [this]
    exact (swapIdx_perm xs i j (by simpa using hi) (by simpa using hj)).cons x

lemma fyLoop_length {α : Type} [Inhabited α] (js : ℕ → ℕ) (off : ℕ) :
    ∀ (i k : ℕ) (a : List α), (fyLoop js off k i a).length = a.length
  | 0, _, _ => rfl
  | 1, _, _ => rfl
  | m + 2, k, a => by
    rw [fyLoop, fyLoop_length js off (m + 1) (k + 1), length_swapIdx]

lemma fyLoop_getD_lt_off {α : Type} [Inhabited α] (js : ℕ → ℕ) (off : ℕ) :
    ∀ (i k p : ℕ), p < off → ∀ (a : List α) (d : α),
      (fyLoop js off k i a).getD p d = a.getD p d
  | 0, _, _, _, _, _ => rfl
  | 1, _, _, _, _, _ => rfl
  | m + 2, k, p, hp, a, d => by
    rw [fyLoop, fyLoop_getD_lt_off js off (m + 1) (k + 1) p hp,
      getD_swapIdx_ne _ _ _ _ (by omega) (by omega)]

lemma fyLoop_getD_ge {α : Type} [Inhabited α] (js : ℕ → ℕ) (off : ℕ) :
    ∀ (i k p : ℕ), i + off ≤ p → ∀ (a : List α) (d : α),
      (fyLoop js off k i a).getD p d = a.getD p d
  | 0, _, _, _, _, _ => rfl
  | 1, _, _, _, _, _ => rfl
  | m + 2, k, p, hp, a, d => by
    have hj : (if m + 2 ≤ js k then m + 1 else js k) ≤ m + 1 := by
      split
      · exact Nat.le_refl _
      · omega
    rw [fyLoop, fyLoop_getD_ge js off (m + 1) (k + 1) p (by omega),
      getD_swapIdx_ne _ _ _ _ (by omega) (by omega)]

lemma fyLoop_perm {α : Type} [Inhabited α] (js : ℕ → ℕ) (off : ℕ) :
    ∀ (i k : ℕ) (a : List α), i + off ≤ a.length → List.Perm (fyLoop js off k i a) a
  | 0, _, _, _ => List.Perm.refl _
  | 1, _, _, _ => List.Perm.refl _
  | m + 2, k, a, h => by
    have hj : (if m + 2 ≤ js k then m + 1 else js k) ≤ m + 1 := by
      split
      · exact Nat.le_refl _
      · omega
    rw [fyLoop]
    have h1 : List.Perm (swapIdx a (m + 1 + off) ((if m + 2 ≤ js k then m + 1 else js k) + off)) a :=
      swapIdx_perm a _ _ (by omega) (by omega)
    have h2 : List.Perm (fyLoop js off (k + 1) (m + 1)
        (swapIdx a (m + 1 + off) ((if m + 2 ≤ js k then m + 1 else js k) + off)))
        (swapIdx a (m + 1 + off) ((if m + 2 ≤ js k then m + 1 else js k) + off)) :=
      fyLoop_perm js off (m + 1) (k + 1) _ (by rw [length_swapIdx]; omega)
    exact h2.trans h1

lemma fyLoop3_fst (js : ℕ → ℕ) :
    ∀ (i k : ℕ) (a b c : List ℚ), (fyLoop3 js k i (a, b, c)).1 = fyLoop js 0 k i a
  | 0, _, _, _, _ => rfl
  | 1, _, _, _, _ => rfl
  | m + 2, k, a, b, c => by
    rw [fyLoop3, fyLoop, fyLoop3_fst js (m + 1) (k + 1)]
    simp

lemma fyLoop3_snd (js : ℕ → ℕ) :
    ∀ (i k : ℕ) (a b c : List ℚ), (fyLoop3 js k i (a, b, c)).2.1 = fyLoop js 0 k i b
  | 0, _, _, _, _ => rfl
  | 1, _, _, _, _ => rfl
  | m + 2, k, a, b, c => by
    rw [fyLoop3, fyLoop, fyLoop3_snd js (m + 1) (k + 1)]
    simp

lemma fyLoop3_thd (js : ℕ → ℕ) :
    ∀ (i k : ℕ) (a b c : List ℚ), (fyLoop3 js k i (a, b, c)).2.2 = fyLoop js 0 k i c
  | 0, _, _, _, _ => rfl
  | 1, _, _, _, _ => rfl
  | m + 2, k, a, b, c => by
    rw [fyLoop3, fyLoop, fyLoop3_thd js (m + 1) (k + 1)]
    simp

lemma fyLoop_eq_nil {α : Type} [Inhabited α] (js : ℕ → ℕ) (off i k : ℕ) (a : List α)
    (h : a.length = 0) : fyLoop js off k i a = a := by
  have h2 : (fyLoop js off k i a).length = 0 := by rw [fyLoop_length]; exact h
  rw [List.length_eq_zero] at h h2
  rw [h] at h2 ⊢
  rw [h2]

@[simp] lemma zip3_nil₁ (b c : List ℚ) : zip3 [] b c = [] := by
  cases b <;> cases c <;> rfl

@[simp] lemma zip3_nil₂ (a c : List ℚ) : zip3 a [] c = [] := by
  cases a <;> cases c <;> rfl

@[simp] lemma zip3_nil₃ (a b : List ℚ) : zip3 a b [] = [] := by
  cases a <;> cases b <;> rfl

@[simp] lemma zip3_cons (a0 b0 c0 : ℚ) (as bs cs : List ℚ) :
    zip3 (a0 :: as) (b0 :: bs) (c0 :: cs) = (a0, b0, c0) :: zip3 as bs cs := rfl

lemma zip3_length : ∀ (a b c : List ℚ), a.length = b.length → a.length = c.length →
    (zip3 a b c).length = a.length
  | [], _, _, _, _ => by simp
  | a :: as, [], c, hb, _ => by simp at hb
  | a :: as, b :: bs, [], _, hc => by simp at hc
  | a :: as, b :: bs, c :: cs, hb, hc => by
    simp only [zip3_cons, List.length_cons]
    rw [zip3_length as bs cs (by simpa using hb) (by simpa using hc)]

lemma zip3_set (x y z : ℚ) :
    ∀ (a b c : List ℚ) (i : ℕ),
      zip3 (a.set i x) (b.set i y) (c.set i z) = (zip3 a b c).set i (x, y, z)
  | [], b, c, i => by simp
  | a :: as, [], c, i => by simp
  | a :: as, b :: bs, [], i => by simp
  | a :: as, b :: bs, c :: cs, 0 => by simp
  | a :: as, b :: bs, c :: cs, i + 1 => by
    simp only [List.set_cons_succ, zip3_cons]
    rw [zip3_set x y z as bs cs i]

lemma zip3_getD :
    ∀ (a b c : List ℚ) (i : ℕ), i < a.length → i < b.length → i < c.length →
      (zip3 a b c).getD i default = (a.getD i default, b.getD i default, c.getD i default)
  | [], _, _, _, ha, _, _ => absurd ha (by simp)
  | a :: as, [], _, _, _, hb, _ => absurd hb (by simp)
  | a :: as, b :: bs, [], _, _, _, hc => absurd hc (by simp)
  | a :: as, b :: bs, c :: cs, 0, _, _, _ => rfl
  | a :: as, b :: bs, c :: cs, i + 1, ha, hb, hc => by
    simp only [zip3_cons, List.getD_cons_succ]
    exact zip3_getD as bs cs i (by simpa using ha) (by simpa using hb) (by simpa using hc)

lemma zip3_swapIdx (a b c : List ℚ) (i j : ℕ) (hab : a.length = b.length)
    (hac : a.length = c.length) (hi : i < a.length) (hj : j < a.length) :
    zip3 (swapIdx a i j) (swapIdx b i j) (swapIdx c i j) = swapIdx (zip3 a b c) i j := by
  have hbi : i < b.length := hab ▸ hi
  have hci : i < c.length := hac ▸ hi
  have hbj : j < b.length := hab ▸ hj
  have hcj : j < c.length := hac ▸ hj
  show _ = ((zip3 a b c).set i ((zip3 a b c).getD j default)).set j ((zip3 a b c).getD i default)
  rw [zip3_getD a b c j hj hbj hcj, zip3_getD a b c i hi hbi hci, ← zip3_set, ← zip3_set]
  rfl

lemma fyLoop3_zip3 (js : ℕ → ℕ) :
    ∀ (i k : ℕ) (a b c : List ℚ), a.length = b.length → a.length = c.length →
      i ≤ a.length →
      zip3 (fyLoop3 js k i (a, b, c)).1 (fyLoop3 js k i (a, b, c)).2.1
          (fyLoop3 js k i (a, b, c)).2.2 =
        fyLoop js 0 k i (zip3 a b c)
  | 0, _, _, _, _, _, _, _ => rfl
  | 1, _, _, _, _, _, _, _ => rfl
  | m + 2, k, a, b, c, hab, hac, hle => by
    have hj : (if m + 2 ≤ js k then m + 1 else js k) ≤ m + 1 := by
      split
      · exact Nat.le_refl _
      · omega
    rw [fyLoop3, fyLoop]
    rw [fyLoop3_zip3 js (m + 1) (k + 1) _ _ _ (by simp [swapIdx, hab]) (by simp [swapIdx, hac])
      (by simp [swapIdx]; omega)]
    rw [zip3_swapIdx a b c _ _ hab hac (by omega) (by omega)]
    simp

/-! ## Conservation properties of do_permute -/

lemma do_permute_rel_open (nc : ℕ) (b : Bool) (bars : List Bar) (r : Rels) (js : ℕ → ℕ) :
    (do_permute nc b bars r js).2.rel_open =
      fyLoop js (if b then 1 else 0) 0 (nc - 1 - (if b then 1 else 0)) r.rel_open := rfl

lemma do_permute_rel_high (nc : ℕ) (b : Bool) (bars : List Bar) (r : Rels) (js : ℕ → ℕ) :
    (do_permute nc b bars r js).2.rel_high =
      fyLoop (fun k => js (nc - 1 - (if b then 1 else 0) - 1 + k)) 0 0
        (nc - 1 - (if b then 1 else 0)) r.rel_high := by
  show (fyLoop3 _ 0 _ (r.rel_high, r.rel_low, r.rel_close)).1 = _
  rw [fyLoop3_fst]

lemma do_permute_rel_low (nc : ℕ) (b : Bool) (bars : List Bar) (r : Rels) (js : ℕ → ℕ) :
    (do_permute nc b bars r js).2.rel_low =
      fyLoop (fun k => js (nc - 1 - (if b then 1 else 0) - 1 + k)) 0 0
        (nc - 1 - (if b then 1 else 0)) r.rel_low := by
  show (fyLoop3 _ 0 _ (r.rel_high, r.rel_low, r.rel_close)).2.1 = _
  rw [fyLoop3_snd]

lemma do_permute_rel_close (nc : ℕ) (b : Bool) (bars : List Bar) (r : Rels) (js : ℕ → ℕ) :
    (do_permute nc b bars r js).2.rel_close =
      fyLoop (fun k => js (nc - 1 - (if b then 1 else 0) - 1 + k)) 0 0
        (nc - 1 - (if b then 1 else 0)) r.rel_close := by
  show (fyLoop3 _ 0 _ (r.rel_high, r.rel_low, r.rel_close)).2.2 = _
  rw [fyLoop3_thd]

/-- Both shuffle loops only reorder: each of the four relative-move arrays
after do_permute is a permutation of what it was before. -/
lemma do_permute_conserves (nc : ℕ) (b : Bool) (bars : List Bar) (r : Rels) (js : ℕ → ℕ)
    (hro : r.rel_open.length = nc - 1) (hrh : r.rel_high.length = nc - 1)
    (hrl : r.rel_low.length = nc - 1) (hrc : r.rel_close.length = nc - 1) :
    List.Perm (do_permute nc b bars r js).2.rel_open r.rel_open ∧
    List.Perm (do_permute nc b bars r js).2.rel_high r.rel_high ∧
    List.Perm (do_permute nc b bars r js).2.rel_low r.rel_low ∧
    List.Perm (do_permute nc b bars r js).2.rel_close r.rel_close := by
  refine ⟨?_, ?_, ?_, ?_⟩
  · rw [do_permute_rel_open]
    by_cases hz : r.rel_open.length = 0
    · rw [fyLoop_eq_nil _ _ _ _ _ hz]
    · apply fyLoop_perm
      have hb : (if b then 1 else 0) ≤ 1 := by cases b <;> simp
      omega
  · rw [do_permute_rel_high]
    apply fyLoop_perm
    omega
  · rw [do_permute_rel_low]
    apply fyLoop_perm
    omega
  · rw [do_permute_rel_close]
    apply fyLoop_perm
    omega

/-- The intrabar triplet shuffle moves the three arrays jointly: the list of
(rel_high, rel_low, rel_close) triplets after do_permute is a permutation of
the list of triplets before, so each triplet of one bar stays together. -/
lemma do_permute_zip3_perm (nc : ℕ) (b : Bool) (bars : List Bar) (r : Rels) (js : ℕ → ℕ)
    (hrh : r.rel_high.length = nc - 1) (hrl : r.rel_low.length = nc - 1)
    (hrc : r.rel_close.length = nc - 1) :
    List.Perm
      (zip3 (do_permute nc b bars r js).2.rel_high (do_permute nc b bars r js).2.rel_low
        (do_permute nc b bars r js).2.rel_close)
      (zip3 r.rel_high r.rel_low r.rel_close) := by
  have hz := fyLoop3_zip3 (fun k => js (nc - 1 - (if b then 1 else 0) - 1 + k))
    (nc - 1 - (if b then 1 else 0)) 0 r.rel_high r.rel_low r.rel_close
    (by omega) (by omega) (by omega)
  have hcomp :
      zip3 (do_permute nc b bars r js).2.rel_high (do_permute nc b bars r js).2.rel_low
        (do_permute nc b bars r js).2.rel_close =
      fyLoop (fun k => js (nc - 1 - (if b then 1 else 0) - 1 + k)) 0 0
        (nc - 1 - (if b then 1 else 0)) (zip3 r.rel_high r.rel_low r.rel_close) := hz
  rw [hcomp]
  apply fyLoop_perm
  rw [zip3_length r.rel_high r.rel_low r.rel_close (by omega) (by omega)]
  omega

/-- With preserve_OO set, the first close-to-open change is never touched by
the shuffle. -/
lemma do_permute_open_head (nc : ℕ) (bars : List Bar) (r : Rels) (js : ℕ → ℕ) :
    (do_permute nc true bars r js).2.rel_open.getD 0 0 = r.rel_open.getD 0 0 := by
  rw [do_permute_rel_open]
  simp only [if_pos rfl]
  exact fyLoop_getD_lt_off js 1 (nc - 1 - 1) 0 0 (by norm_num) r.rel_open 0

/-- With preserve_OO set, the triplet shuffle runs over a count reduced by
one but with no starting offset, so it is the LAST intrabar triplet, at index
nc-2 of the work arrays, that is never touched. -/
lemma do_permute_triplet_last (nc : ℕ) (bars : List Bar) (r : Rels) (js : ℕ → ℕ) :
    (do_permute nc true bars r js).2.rel_high.getD (nc - 2) 0 = r.rel_high.getD (nc - 2) 0 ∧
    (do_permute nc true bars r js).2.rel_low.getD (nc - 2) 0 = r.rel_low.getD (nc - 2) 0 ∧
    (do_permute nc true bars r js).2.rel_close.getD (nc - 2) 0 = r.rel_close.getD (nc - 2) 0 := by
  refine ⟨?_, ?_, ?_⟩
  · rw [do_permute_rel_high]
    exact fyLoop_getD_ge _ 0 _ 0 (nc - 2) (by simp; omega) r.rel_high 0
  · rw [do_permute_rel_low]
    exact fyLoop_getD_ge _ 0 _ 0 (nc - 2) (by simp; omega) r.rel_low 0
  · rw [do_permute_rel_close]
    exact fyLoop_getD_ge _ 0 _ 0 (nc - 2) (by simp; omega) r.rel_close 0

/-- C3: the shuffle step of do_permute only reorders: for every relative-move
set (work arrays of length nc-1), every preserve_OO flag and every sequence
of random draws, the multiset of rel_open values and, separately, each of the
multisets of rel_high, rel_low and rel_close values are unchanged. -/
theorem shuffle_multiset_conservation (nc : ℕ) (b : Bool) (bars : List Bar) (r : Rels)
    (js : ℕ → ℕ) (hro : r.rel_open.length = nc - 1) (hrh : r.rel_high.length = nc - 1)
    (hrl : r.rel_low.length = nc - 1) (hrc : r.rel_close.length = nc - 1) :
    List.Perm (do_permute nc b bars r js).2.rel_open r.rel_open ∧
    List.Perm (do_permute nc b bars r js).2.rel_high r.rel_high ∧
    List.Perm (do_permute nc b bars r js).2.rel_low r.rel_low ∧
    List.Perm (do_permute nc b bars r js).2.rel_close r.rel_close :=
  do_permute_conserves nc b bars r js hro hrh hrl hrc

/-- Witness for C3 at a concrete window size, move set and draw sequence. -/
theorem shuffle_multiset_conservation_witness :
    List.Perm (do_permute 3 true [] ⟨[1, 2], [3, 4], [5, 6], [7, 8]⟩ (fun _ => 0)).2.rel_open
      [1, 2] ∧
    List.Perm (do_permute 3 true [] ⟨[1, 2], [3, 4], [5, 6], [7, 8]⟩ (fun _ => 0)).2.rel_high
      [3, 4] ∧
    List.Perm (do_permute 3 true [] ⟨[1, 2], [3, 4], [5, 6], [7, 8]⟩ (fun _ => 0)).2.rel_low
      [5, 6] ∧
    List.Perm (do_permute 3 true [] ⟨[1, 2], [3, 4], [5, 6], [7, 8]⟩ (fun _ => 0)).2.rel_close
      [7, 8] :=
  shuffle_multiset_conservation 3 true [] ⟨[1, 2], [3, 4], [5, 6], [7, 8]⟩ (fun _ => 0)
    rfl rfl rfl rfl

/-- C8 (counterexample): the intrabar triplet is NOT shuffled over the full
remaining index range with no index held fixed: for a window of nc = 4 bars
with preserve_OO set, no draw sequence whatsoever can change the rel_high
entry at index nc - 2 = 2, because the triplet loop count is reduced by the
preserve flag while its starting offset is not. -/
theorem triplet_shuffle_range_counterexample :
    ¬ ∃ js : ℕ → ℕ,
      (do_permute 4 true [] ⟨[1, 2, 3], [10, 20, 30], [40, 50, 60], [70, 80, 90]⟩
        js).2.rel_high.getD 2 0 ≠ 30 := by
  rintro ⟨js, h⟩
  exact h (do_permute_triplet_last 4 [] ⟨[1, 2, 3], [10, 20, 30], [40, 50, 60], [70, 80, 90]⟩
    js).1

/-- C8 (amended): with preserve_OO set the shuffle leaves openGap index 0
fixed and permutes openGap only over the remaining indices [1, nc-2]; the
intrabar triplet (relHigh, relLow, relClose) is shuffled jointly, the same
drawn index applied to all three arrays so the triplet of each bar stays
together, but over the index range [0, nc-3] only: the triplet at index
nc-2, belonging to the last bar of the window, is held fixed. -/
theorem shuffle_ranges (nc : ℕ) (bars : List Bar) (r : Rels) (js : ℕ → ℕ)
    (hro : r.rel_open.length = nc - 1) (hrh : r.rel_high.length = nc - 1)
    (hrl : r.rel_low.length = nc - 1) (hrc : r.rel_close.length = nc - 1) :
    (do_permute nc true bars r js).2.rel_open.getD 0 0 = r.rel_open.getD 0 0 ∧
    List.Perm (do_permute nc true bars r js).2.rel_open.tail r.rel_open.tail ∧
    List.Perm
      (zip3 (do_permute nc true bars r js).2.rel_high (do_permute nc true bars r js).2.rel_low
        (do_permute nc true bars r js).2.rel_close)
      (zip3 r.rel_high r.rel_low r.rel_close) ∧
    (do_permute nc true bars r js).2.rel_high.getD (nc - 2) 0 = r.rel_high.getD (nc - 2) 0 ∧
    (do_permute nc true bars r js).2.rel_low.getD (nc - 2) 0 = r.rel_low.getD (nc - 2) 0 ∧
    (do_permute nc true bars r js).2.rel_close.getD (nc - 2) 0 = r.rel_close.getD (nc - 2) 0 := by
  have hh := do_permute_open_head nc bars r js
  have hp := (do_permute_conserves nc true bars r js hro hrh hrl hrc).1
  have hlast := do_permute_triplet_last nc bars r js
  refine ⟨hh, ?_, do_permute_zip3_perm nc true bars r js hrh hrl hrc,
    hlast.1, hlast.2.1, hlast.2.2⟩
  cases e : r.rel_open with
  | nil =>
    rw [e] at hp
    rw [List.perm_nil] at hp
    rw [hp]
  | cons x xs =>
    cases e2 : (do_permute nc true bars r js).2.rel_open with
    | nil =>
      rw [e, e2] at hp
      exact absurd hp.symm (by simp)
    | cons y ys =>
      rw [e, e2] at hp hh
      simp only [List.getD_cons_zero] at hh
      rw [hh] at hp
      simpa using hp.cons_inv

/-- Witness for C8 at a concrete window size, move set and draw sequence. -/
theorem shuffle_ranges_witness :
    (do_permute 4 true [] ⟨[1, 2, 3], [11, 12, 13], [21, 22, 23], [31, 32, 33]⟩
      (fun _ => 1)).2.rel_open.getD 0 0 = 1 ∧
    List.Perm (do_permute 4 true [] ⟨[1, 2, 3], [11, 12, 13], [21, 22, 23], [31, 32, 33]⟩
      (fun _ => 1)).2.rel_open.tail [2, 3] ∧
    List.Perm
      (zip3 (do_permute 4 true [] ⟨[1, 2, 3], [11, 12, 13], [21, 22, 23], [31, 32, 33]⟩
          (fun _ => 1)).2.rel_high
        (do_permute 4 true [] ⟨[1, 2, 3], [11, 12, 13], [21, 22, 23], [31, 32, 33]⟩
          (fun _ => 1)).2.rel_low
        (do_permute 4 true [] ⟨[1, 2, 3], [11, 12, 13], [21, 22, 23], [31, 32, 33]⟩
          (fun _ => 1)).2.rel_close)
      (zip3 [11, 12, 13] [21, 22, 23] [31, 32, 33]) ∧
    (do_permute 4 true [] ⟨[1, 2, 3], [11, 12, 13], [21, 22, 23], [31, 32, 33]⟩
      (fun _ => 1)).2.rel_high.getD 2 0 = 13 ∧
    (do_permute 4 true [] ⟨[1, 2, 3], [11, 12, 13], [21, 22, 23], [31, 32, 33]⟩
      (fun _ => 1)).2.rel_low.getD 2 0 = 23 ∧
    (do_permute 4 true [] ⟨[1, 2, 3], [11, 12, 13], [21, 22, 23], [31, 32, 33]⟩
      (fun _ => 1)).2.rel_close.getD 2 0 = 33 :=
  shuffle_ranges 4 [] ⟨[1, 2, 3], [11, 12, 13], [21, 22, 23], [31, 32, 33]⟩ (fun _ => 1)
    rfl rfl rfl rfl

/-! ## Rebuild and prepare lemmas -/

/-- Close of the last bar of a window. -/
def lastClose (l : List Bar) : ℚ := (l.getLastD default).bclose

/-- Iterated shuffle-and-rebuild cycles, one draw sequence per cycle, exactly
as the replication loop of main applies do_permute to the same window and the
same (progressively reshuffled) work arrays. -/
def permuteCycles (nc : ℕ) : List Bar × Rels → List (ℕ → ℕ) → List Bar × Rels
  | s, [] => s
  | s, js :: rest => permuteCycles nc (do_permute nc true s.1 s.2 js) rest

lemma rebuildBars_nil (c : ℚ) (rhs rls rcs : List ℚ) :
    rebuildBars c [] rhs rls rcs = [] := by
  cases rhs <;> cases rls <;> cases rcs <;> rfl

lemma rebuildBars_length :
    ∀ (ros rhs rls rcs : List ℚ) (c : ℚ), rhs.length = ros.length →
      rls.length = ros.length → rcs.length = ros.length →
      (rebuildBars c ros rhs rls rcs).length = ros.length
  | [], rhs, rls, rcs, c, _, _, _ => by simp [rebuildBars_nil]
  | ro :: ros, [], rls, rcs, c, h1, _, _ => by simp at h1
  | ro :: ros, rh :: rhs, [], rcs, c, _, h2, _ => by simp at h2
  | ro :: ros, rh :: rhs, rl :: rls, [], c, _, _, h3 => by simp at h3
  | ro :: ros, rh :: rhs, rl :: rls, rc :: rcs, c, h1, h2, h3 => by
    rw [rebuildBars, List.length_cons, List.length_cons,
      rebuildBars_length ros rhs rls rcs _ (by simpa using h1) (by simpa using h2)
        (by simpa using h3)]

lemma rebuildBars_getLastD :
    ∀ (ros rhs rls rcs : List ℚ) (c : ℚ), ros ≠ [] → rhs.length = ros.length →
      rls.length = ros.length → rcs.length = ros.length → ∀ (d : Bar),
      ((rebuildBars c ros rhs rls rcs).getLastD d).bclose = c + (ros.sum + rcs.sum)
  | [], _, _, _, _, hne, _, _, _, _ => absurd rfl hne
  | ro :: ros, [], rls, rcs, c, _, h1, _, _, _ => by simp at h1
  | ro :: ros, rh :: rhs, [], rcs, c, _, _, h2, _, _ => by simp at h2
  | ro :: ros, rh :: rhs, rl :: rls, [], c, _, _, _, h3, _ => by simp at h3
  | ro :: ros, rh :: rhs, rl :: rls, rc :: rcs, c, _, h1, h2, h3, d => by
    rw [rebuildBars, List.getLastD_cons]
    by_cases e : ros = []
    · subst e
      have e1 : rhs = [] := by simpa using h1
      have e2 : rls = [] := by simpa using h2
      have e3 : rcs = [] := by simpa using h3
      subst e1; subst e2; subst e3
      simp [rebuildBars_nil]
      ring
    · rw [rebuildBars_getLastD ros rhs rls rcs (c + ro + rc) e
        (by simpa using h1) (by simpa using h2) (by simpa using h3)]
      simp
      ring

/-- Close of the last bar of a freshly rebuilt window: the basis close plus
the total of all close-to-open and open-to-close changes. -/
lemma lastClose_rebuild (b0 : Bar) (ros rhs rls rcs : List ℚ)
    (h1 : rhs.length = ros.length) (h2 : rls.length = ros.length)
    (h3 : rcs.length = ros.length) :
    lastClose (b0 :: rebuildBars b0.bclose ros rhs rls rcs) =
      b0.bclose + (ros.sum + rcs.sum) := by
  by_cases e : ros = []
  · subst e
    have e1 : rhs = [] := by simpa using h1
    have e2 : rls = [] := by simpa using h2
    have e3 : rcs = [] := by simpa using h3
    subst e1; subst e2; subst e3
    simp [lastClose, rebuildBars_nil]
  · rw [lastClose, List.getLastD_cons,
      rebuildBars_getLastD ros rhs rls rcs b0.bclose e h1 h2 h3]

lemma prepare_permute_lengths : ∀ (bs : List Bar) (c : ℚ),
    (prepare_permute c bs).rel_open.length = bs.length ∧
    (prepare_permute c bs).rel_high.length = bs.length ∧
    (prepare_permute c bs).rel_low.length = bs.length ∧
    (prepare_permute c bs).rel_close.length = bs.length
  | [], _ => by simp [prepare_permute]
  | b :: bs, c => by
    have ih := prepare_permute_lengths bs b.bclose
    simp only [prepare_permute, List.length_cons]
    exact ⟨by rw [ih.1], by rw [ih.2.1], by rw [ih.2.2.1], by rw [ih.2.2.2]⟩

lemma getLastD_map_bclose : ∀ (l : List Bar) (d : Bar),
    (l.map Bar.bclose).getLastD d.bclose = (l.getLastD d).bclose
  | [], _ => rfl
  | b :: bs, d => by
    rw [List.map_cons, List.getLastD_cons, List.getLastD_cons, getLastD_map_bclose bs b]

/-- Telescoping identity of prepare_permute: the basis close plus the total of
the close-to-open and open-to-close changes recovers the final close. -/
lemma prepare_permute_sum : ∀ (bs : List Bar) (c : ℚ),
    c + ((prepare_permute c bs).rel_open.sum + (prepare_permute c bs).rel_close.sum) =
      (bs.map Bar.bclose).getLastD c
  | [], c => by simp [prepare_permute]
  | b :: bs, c => by
    have ih := prepare_permute_sum bs b.bclose
    simp only [prepare_permute, List.map_cons, List.getLastD_cons, List.sum_cons]
    rw [getLastD_map_bclose, ← getLastD_map_bclose bs b, ← ih]
    ring

/-- Invariant maintained by repeated do_permute cycles: the window head, the
closing price of the window, the four work-array lengths and the total of the
close-to-open plus intrabar-close changes are all preserved. -/
lemma permuteCycles_inv (nc : ℕ) (b0 : Bar) (origLast : ℚ) :
    ∀ (streams : List (ℕ → ℕ)) (s : List Bar × Rels),
      s.1.headD default = b0 →
      lastClose s.1 = origLast →
      s.2.rel_open.length = nc - 1 → s.2.rel_high.length = nc - 1 →
      s.2.rel_low.length = nc - 1 → s.2.rel_close.length = nc - 1 →
      b0.bclose + (s.2.rel_open.sum + s.2.rel_close.sum) = origLast →
      (permuteCycles nc s streams).1.headD default = b0 ∧
      lastClose (permuteCycles nc s streams).1 = origLast ∧
      (permuteCycles nc s streams).2.rel_open.length = nc - 1 ∧
      (permuteCycles nc s streams).2.rel_high.length = nc - 1 ∧
      (permuteCycles nc s streams).2.rel_low.length = nc - 1 ∧
      (permuteCycles nc s streams).2.rel_close.length = nc - 1 ∧
      b0.bclose + ((permuteCycles nc s streams).2.rel_open.sum +
        (permuteCycles nc s streams).2.rel_close.sum) = origLast
  | [], s, h1, h2, h3, h4, h5, h6, h7 => ⟨h1, h2, h3, h4, h5, h6, h7⟩
  | js :: rest, s, h1, h2, h3, h4, h5, h6, h7 => by
    rw [permuteCycles]
    have hperm := do_permute_conserves nc true s.1 s.2 js h3 h4 h5 h6
    have hb : (do_permute nc true s.1 s.2 js).1 =
        s.1.headD default :: rebuildBars (s.1.headD default).bclose
          (do_permute nc true s.1 s.2 js).2.rel_open
          (do_permute nc true s.1 s.2 js).2.rel_high
          (do_permute nc true s.1 s.2 js).2.rel_low
          (do_permute nc true s.1 s.2 js).2.rel_close := rfl
    have hro2 : (do_permute nc true s.1 s.2 js).2.rel_open.length = nc - 1 := by
      rw [hperm.1.length_eq]; exact h3
    have hrh2 : (do_permute nc true s.1 s.2 js).2.rel_high.length = nc - 1 := by
      rw [hperm.2.1.length_eq]; exact h4
    have hrl2 : (do_permute nc true s.1 s.2 js).2.rel_low.length = nc - 1 := by
      rw [hperm.2.2.1.length_eq]; exact h5
    have hrc2 : (do_permute nc true s.1 s.2 js).2.rel_close.length = nc - 1 := by
      rw [hperm.2.2.2.length_eq]; exact h6
    have hsum2 : b0.bclose + ((do_permute nc true s.1 s.2 js).2.rel_open.sum +
        (do_permute nc true s.1 s.2 js).2.rel_close.sum) = origLast := by
      rw [hperm.1.sum_eq, hperm.2.2.2.sum_eq]; exact h7
    have hhead2 : (do_permute nc true s.1 s.2 js).1.headD default = b0 := by
      rw [hb]
      simpa using h1
    have hlast2 : lastClose (do_permute nc true s.1 s.2 js).1 = origLast := by
      rw [hb, h1]
      rw [lastClose_rebuild b0 _ _ _ _ (hrh2.trans hro2.symm) (hrl2.trans hro2.symm)
        (hrc2.trans hro2.symm)]
      exact hsum2
    exact permuteCycles_inv nc b0 origLast rest (do_permute nc true s.1 s.2 js)
      hhead2 hlast2 hro2 hrh2 hrl2 hrc2 hsum2

/-- C2: for every window of at least 2 bars, after any number of successive
shuffle-and-rebuild cycles with preserve_OO set, the open and close of the
first bar and the close of the last bar of the window are unchanged from
their pre-shuffle values. -/
theorem permute_endpoint_invariance (window : List Bar) (streams : List (ℕ → ℕ))
    (h2 : 2 ≤ window.length) :
    ((permuteCycles window.length
        (window, prepare_permute (window.headD default).bclose window.tail)
        streams).1.headD default).bopen = (window.headD default).bopen ∧
    ((permuteCycles window.length
        (window, prepare_permute (window.headD default).bclose window.tail)
        streams).1.headD default).bclose = (window.headD default).bclose ∧
    lastClose (permuteCycles window.length
        (window, prepare_permute (window.headD default).bclose window.tail)
        streams).1 = lastClose window := by
  cases window with
  | nil => simp at h2
  | cons b0 tl =>
    have hlen := prepare_permute_lengths tl b0.bclose
    have hl : lastClose (b0 :: tl) = (tl.map Bar.bclose).getLastD b0.bclose := by
      rw [lastClose, List.getLastD_cons, ← getLastD_map_bclose]
    have inv := permuteCycles_inv (b0 :: tl).length b0 (lastClose (b0 :: tl)) streams
      (b0 :: tl, prepare_permute b0.bclose tl)
      (by simp) rfl
      (by rw [hlen.1]; simp) (by rw [hlen.2.1]; simp)
      (by rw [hlen.2.2.1]; simp) (by rw [hlen.2.2.2]; simp)
      (by rw [hl]; exact prepare_permute_sum tl b0.bclose)
    simp only [List.headD_cons, List.tail_cons]
    exact ⟨by rw [inv.1], by rw [inv.1], inv.2.1⟩

/-- Witness for C2 on a concrete 2-bar window and one cycle. -/
theorem permute_endpoint_invariance_witness :
    ((permuteCycles 2
        (([⟨1, 4, 0, 2⟩, ⟨3, 5, 1, 4⟩] : List Bar),
          prepare_permute (2 : ℚ) [⟨3, 5, 1, 4⟩])
        [fun _ => 0]).1.headD default).bopen = 1 ∧
    ((permuteCycles 2
        (([⟨1, 4, 0, 2⟩, ⟨3, 5, 1, 4⟩] : List Bar),
          prepare_permute (2 : ℚ) [⟨3, 5, 1, 4⟩])
        [fun _ => 0]).1.headD default).bclose = 2 ∧
    lastClose (permuteCycles 2
        (([⟨1, 4, 0, 2⟩, ⟨3, 5, 1, 4⟩] : List Bar),
          prepare_permute (2 : ℚ) [⟨3, 5, 1, 4⟩])
        [fun _ => 0]).1 = 4 :=
  permute_endpoint_invariance [⟨1, 4, 0, 2⟩, ⟨3, 5, 1, 4⟩] [fun _ => 0] (by norm_num)

/-! ## OHLC consistency under permutation -/

/-- Validity of one bar: the low is at or below both open and close, the high
at or above both, exactly the check the loader enforces (lines 423-432). -/
def BarOK (b : Bar) : Prop :=
  b.blow ≤ b.bopen ∧ b.blow ≤ b.bclose ∧ b.bopen ≤ b.bhigh ∧ b.bclose ≤ b.bhigh

/-- Validity of one intrabar-move triplet (rel_high, rel_low, rel_close): the
low move is nonpositive, the high move nonnegative, and the close move lies
between them. -/
def TripleOK (t : ℚ × ℚ × ℚ) : Prop :=
  t.2.1 ≤ 0 ∧ 0 ≤ t.1 ∧ t.2.1 ≤ t.2.2 ∧ t.2.2 ≤ t.1

lemma barOK_default : BarOK default := by
  refine ⟨le_refl 0, le_refl 0, le_refl 0, le_refl 0⟩

lemma prepare_tripleOK : ∀ (bs : List Bar) (c : ℚ), (∀ b ∈ bs, BarOK b) →
    ∀ t ∈ zip3 (prepare_permute c bs).rel_high (prepare_permute c bs).rel_low
      (prepare_permute c bs).rel_close, TripleOK t
  | [], c, _ => by simp [prepare_permute]
  | b :: bs, c, hok => by
    have hb : BarOK b := hok b (by simp)
    have ih := prepare_tripleOK bs b.bclose (fun x hx => hok x (by simp [hx]))
    simp only [prepare_permute, zip3_cons]
    intro t ht
    rcases List.mem_cons.mp ht with h | h
    · subst h
      obtain ⟨q1, q2, q3, q4⟩ := hb
      exact ⟨by simpa using q1, by simpa using q3, by simpa using q2, by simpa using q4⟩
    · exact ih t h

lemma rebuild_barOK : ∀ (ros rhs rls rcs : List ℚ) (c : ℚ),
    (∀ t ∈ zip3 rhs rls rcs, TripleOK t) →
    ∀ b2 ∈ rebuildBars c ros rhs rls rcs, BarOK b2
  | [], rhs, rls, rcs, c, _ => by rw [rebuildBars_nil]; simp
  | ro :: ros, [], rls, rcs, c, _ => by
    cases rls <;> cases rcs <;> simp [rebuildBars]
  | ro :: ros, rh :: rhs, [], rcs, c, _ => by
    cases rcs <;> simp [rebuildBars]
  | ro :: ros, rh :: rhs, rl :: rls, [], c, _ => by simp [rebuildBars]
  | ro :: ros, rh :: rhs, rl :: rls, rc :: rcs, c, hok => by
    have ht : TripleOK (rh, rl, rc) := hok _ (by simp)
    have ih := rebuild_barOK ros rhs rls rcs (c + ro + rc)
      (fun t h => hok t (by simp [h]))
    intro b2 hb2
    rw [rebuildBars] at hb2
    rcases List.mem_cons.mp hb2 with h | h
    · subst h
      obtain ⟨q1, q2, q3, q4⟩ := ht
      exact ⟨by simpa using q1, by simp; linarith, by simpa using q2, by simp; linarith⟩
    · exact ih b2 h

/-- Invariant maintained by repeated do_permute cycles: every window bar and
every intrabar triplet stays OHLC-consistent, and the work-array lengths are
preserved. -/
lemma permuteCycles_ok (nc : ℕ) :
    ∀ (streams : List (ℕ → ℕ)) (s : List Bar × Rels),
      (∀ b2 ∈ s.1, BarOK b2) → BarOK (s.1.headD default) →
      (∀ t ∈ zip3 s.2.rel_high s.2.rel_low s.2.rel_close, TripleOK t) →
      s.2.rel_open.length = nc - 1 → s.2.rel_high.length = nc - 1 →
      s.2.rel_low.length = nc - 1 → s.2.rel_close.length = nc - 1 →
      (∀ b2 ∈ (permuteCycles nc s streams).1, BarOK b2) ∧
      BarOK ((permuteCycles nc s streams).1.headD default) ∧
      (∀ t ∈ zip3 (permuteCycles nc s streams).2.rel_high
        (permuteCycles nc s streams).2.rel_low
        (permuteCycles nc s streams).2.rel_close, TripleOK t) ∧
      (permuteCycles nc s streams).2.rel_open.length = nc - 1 ∧
      (permuteCycles nc s streams).2.rel_high.length = nc - 1 ∧
      (permuteCycles nc s streams).2.rel_low.length = nc - 1 ∧
      (permuteCycles nc s streams).2.rel_close.length = nc - 1
  | [], s, h1, h2, h3, h4, h5, h6, h7 => ⟨h1, h2, h3, h4, h5, h6, h7⟩
  | js :: rest, s, h1, h2, h3, h4, h5, h6, h7 => by
    rw [permuteCycles]
    have hperm := do_permute_conserves nc true s.1 s.2 js h4 h5 h6 h7
    have hz := do_permute_zip3_perm nc true s.1 s.2 js h5 h6 h7
    have hb : (do_permute nc true s.1 s.2 js).1 =
        s.1.headD default :: rebuildBars (s.1.headD default).bclose
          (do_permute nc true s.1 s.2 js).2.rel_open
          (do_permute nc true s.1 s.2 js).2.rel_high
          (do_permute nc true s.1 s.2 js).2.rel_low
          (do_permute nc true s.1 s.2 js).2.rel_close := rfl
    have htrip2 : ∀ t ∈ zip3 (do_permute nc true s.1 s.2 js).2.rel_high
        (do_permute nc true s.1 s.2 js).2.rel_low
        (do_permute nc true s.1 s.2 js).2.rel_close, TripleOK t :=
      fun t h => h3 t (hz.mem_iff.mp h)
    have hok2 : ∀ b2 ∈ (do_permute nc true s.1 s.2 js).1, BarOK b2 := by
      rw [hb]
      intro b2 hb2
      rcases List.mem_cons.mp hb2 with h | h
      · subst h; exact h2
      · exact rebuild_barOK _ _ _ _ _ htrip2 b2 h
    have hhead2 : BarOK ((do_permute nc true s.1 s.2 js).1.headD default) := by
      rw [hb]; simpa using h2
    exact permuteCycles_ok nc rest (do_permute nc true s.1 s.2 js)
      hok2 hhead2 htrip2
      (by rw [hperm.1.length_eq]; exact h4)
      (by rw [hperm.2.1.length_eq]; exact h5)
      (by rw [hperm.2.2.1.length_eq]; exact h6)
      (by rw [hperm.2.2.2.length_eq]; exact h7)

/-- C10: the OHLC bar invariant is preserved by permutation: if every bar of
the window satisfies low at or below open and close and high at or above open
and close, then after prepare_permute and any number of do_permute cycles
every rebuilt bar still satisfies it, because each intrabar triplet moves as
a unit onto a single new open. -/
theorem permute_ohlc_invariant (window : List Bar) (streams : List (ℕ → ℕ))
    (hok : ∀ b ∈ window, BarOK b) :
    ∀ b2 ∈ (permuteCycles window.length
      (window, prepare_permute (window.headD default).bclose window.tail)
      streams).1, BarOK b2 := by
  cases window with
  | nil =>
    have hlen := prepare_permute_lengths ([] : List Bar) ((default : Bar)).bclose
    have h := permuteCycles_ok 0 streams ([], prepare_permute (default : Bar).bclose [])
      (by simp) (by simpa using barOK_default)
      (by simp [prepare_permute])
      (by simp [prepare_permute]) (by simp [prepare_permute])
      (by simp [prepare_permute]) (by simp [prepare_permute])
    simpa using h.1
  | cons b0 tl =>
    have hlen := prepare_permute_lengths tl b0.bclose
    have h := permuteCycles_ok (b0 :: tl).length streams
      (b0 :: tl, prepare_permute b0.bclose tl)
      hok (by simpa using hok b0 (by simp))
      (prepare_tripleOK tl b0.bclose (fun x hx => hok x (by simp [hx])))
      (by rw [hlen.1]; simp) (by rw [hlen.2.1]; simp)
      (by rw [hlen.2.2.1]; simp) (by rw [hlen.2.2.2]; simp)
    simpa using h.1

/-- Witness for C10 on a concrete 2-bar window and one cycle. -/
theorem permute_ohlc_invariant_witness :
    List.Forall BarOK (permuteCycles 2
      (([⟨1, 4, 0, 2⟩, ⟨3, 5, 1, 4⟩] : List Bar),
        prepare_permute (2 : ℚ) [⟨3, 5, 1, 4⟩])
      [fun _ => 0]).1 := by
  have h := permute_ohlc_invariant [⟨1, 4, 0, 2⟩, ⟨3, 5, 1, 4⟩] [fun _ => 0]
    (by
      intro b hb
      rcases List.mem_cons.mp hb with h | h
      · subst h; refine ⟨by norm_num, by norm_num, by norm_num, by norm_num⟩
      · rcases List.mem_cons.mp h with h2 | h2
        · subst h2; refine ⟨by norm_num, by norm_num, by norm_num, by norm_num⟩
        · simp at h2)
  rw [List.forall_iff_forall_mem]
  simpa using h

/-! ## Rule optimizer opt_params (MCPT_BARS.CPP lines 84-139) -/

/-- Per-index body of one grid trial (lines 110-123): compute the long-term
rise close[i] - close[i-lookback] and the short-term drop
close[i-1] - close[i]; when both thresholds are met, realize the
next-open-to-open return open[i+2] - open[i+1] and count one long position,
else realize zero return. -/
def trialStep (lookback : ℕ) (opn cls : ℕ → ℚ) (rt dt : ℚ) (acc : ℚ × ℕ) (i : ℕ) :
    ℚ × ℕ :=
  let rise := cls i - cls (i - lookback)
  let drop := cls (i - 1) - cls i
  if rt ≤ rise ∧ dt ≤ drop then (acc.1 + (opn (i + 2) - opn (i + 1)), acc.2 + 1)
  else acc

/-- Cumulated return and long count of one threshold pair over the evaluation
index range (loop for i from lookback while i < ncases - 2). -/
def trialReturn (ncases lookback : ℕ) (opn cls : ℕ → ℚ) (rt dt : ℚ) : ℚ × ℕ :=
  (List.range' lookback (ncases - 2 - lookback)).foldl
    (trialStep lookback opn cls rt dt) (0, 0)

/-- Grid of trial index pairs (irise, idrop), iterated outer-rise-ascending
and inner-drop-ascending (lines 98-101). -/
def gridPairs : List (ℕ × ℕ) :=
  ((List.range' 1 50).map fun ir => (List.range' 1 50).map fun idp => (ir, idp)).flatten

/-- Rise threshold of grid row irise: irise * 0.005 (line 99). -/
def riseThresh (ir : ℕ) : ℚ := ir * (5 / 1000)

/-- Drop threshold of grid column idrop: idrop * 0.0005 (line 101). -/
def dropThresh (idp : ℕ) : ℚ := idp * (5 / 10000)

/-- Result of opt_params: best total return and the stored optimal rise, drop
and long count. -/
structure OptResult where
  best : ℚ
  opt_rise : ℚ
  opt_drop : ℚ
  nlong : ℕ
deriving DecidableEq

/-- Trial outcome of one grid pair. -/
def gridTrial (ncases lookback : ℕ) (opn cls : ℕ → ℚ) (p : ℕ × ℕ) : ℚ × ℕ :=
  trialReturn ncases lookback opn cls (riseThresh p.1) (dropThresh p.2)

/-- Record built when a grid pair breaks the record (lines 128-133). -/
def mkRes (ncases lookback : ℕ) (opn cls : ℕ → ℚ) (p : ℕ × ℕ) : OptResult :=
  ⟨(gridTrial ncases lookback opn cls p).1, riseThresh p.1, dropThresh p.2,
    (gridTrial ncases lookback opn cls p).2⟩

/-- Record-keeping step (lines 128-133): a strictly better total return
replaces the incumbent. -/
def optStep (ncases lookback : ℕ) (opn cls : ℕ → ℚ) (acc : OptResult) (p : ℕ × ℕ) :
    OptResult :=
  if acc.best < (gridTrial ncases lookback opn cls p).1
  then mkRes ncases lookback opn cls p else acc

/-- opt_params (lines 84-139): exhaustive grid search over the 2500 pairs with
best performance starting at the sentinel -1.e60.  The rise, drop and long
count fields model the values stored through the output pointer parameters;
they are 0 when no trial ever beats the sentinel, modeling the untouched
output variables of the C code. -/
def opt_params (ncases lookback : ℕ) (opn cls : ℕ → ℚ) : OptResult :=
  gridPairs.foldl (optStep ncases lookback opn cls) ⟨-(10 ^ 60 : ℚ), 0, 0, 0⟩

/-- Strict greater-than record keeping returns the first maximizer: the fold
either never updates (no trial beats the incumbent) or returns the record of
a pair that strictly beats everything before it and is not beaten by anything
after it. -/
lemma foldl_optStep_spec (ncases lookback : ℕ) (opn cls : ℕ → ℚ) :
    ∀ (l : List (ℕ × ℕ)) (acc : OptResult),
      (l.foldl (optStep ncases lookback opn cls) acc = acc ∧
        ∀ p ∈ l, (gridTrial ncases lookback opn cls p).1 ≤ acc.best) ∨
      (∃ l1 p l2, l = l1 ++ p :: l2 ∧
        l.foldl (optStep ncases lookback opn cls) acc = mkRes ncases lookback opn cls p ∧
        acc.best < (gridTrial ncases lookback opn cls p).1 ∧
        (∀ q ∈ l1, (gridTrial ncases lookback opn cls q).1 <
          (gridTrial ncases lookback opn cls p).1) ∧
        (∀ q ∈ l2, (gridTrial ncases lookback opn cls q).1 ≤
          (gridTrial ncases lookback opn cls p).1))
  | [], acc => Or.inl ⟨rfl, by simp⟩
  | p0 :: rest, acc => by
    rw [List.foldl_cons]
    by_cases h0 : acc.best < (gridTrial ncases lookback opn cls p0).1
    · rw [show optStep ncases lookback opn cls acc p0 = mkRes ncases lookback opn cls p0
        from if_pos h0]
      rcases foldl_optStep_spec ncases lookback opn cls rest (mkRes ncases lookback opn cls p0)
        with ⟨heq, hle⟩ | ⟨l1, p, l2, hsplit, heq, hgt, hl1, hl2⟩
      · refine Or.inr ⟨[], p0, rest, by simp, heq, h0, by simp, ?_⟩
        exact fun q hq => hle q hq
      · refine Or.inr ⟨p0 :: l1, p, l2, by rw [hsplit]; rfl, heq, lt_trans h0 hgt, ?_, hl2⟩
        intro q hq
        rcases List.mem_cons.mp hq with h | h
        · subst h; exact hgt
        · exact hl1 q h
    · rw [show optStep ncases lookback opn cls acc p0 = acc from if_neg h0]
      have h0le : (gridTrial ncases lookback opn cls p0).1 ≤ acc.best := not_lt.mp h0
      rcases foldl_optStep_spec ncases lookback opn cls rest acc
        with ⟨heq, hle⟩ | ⟨l1, p, l2, hsplit, heq, hgt, hl1, hl2⟩
      · refine Or.inl ⟨heq, ?_⟩
        intro q hq
        rcases List.mem_cons.mp hq with h | h
        · subst h; exact h0le
        · exact hle q h
      · refine Or.inr ⟨p0 :: l1, p, l2, by rw [hsplit]; rfl, heq, hgt, ?_, hl2⟩
        intro q hq
        rcases List.mem_cons.mp hq with h | h
        · subst h; exact lt_of_le_of_lt h0le hgt
        · exact hl1 q h

/-- Iteration order of the grid: outer rise index ascending, inner drop index
ascending. -/
def pairLT (p q : ℕ × ℕ) : Prop := p.1 < q.1 ∨ (p.1 = q.1 ∧ p.2 < q.2)

lemma gridPairs_pairwise : List.Pairwise pairLT gridPairs := by
  rw [gridPairs, List.pairwise_flatten]
  constructor
  · intro l hl
    rcases List.mem_map.mp hl with ⟨ir, _, rfl⟩
    rw [List.pairwise_map]
    exact (List.pairwise_lt_range' 1 50).imp fun h => Or.inr ⟨rfl, h⟩
  · rw [List.pairwise_map]
    refine (List.pairwise_lt_range' 1 50).imp ?_
    intro a b hab
    intro x hx y hy
    rcases List.mem_map.mp hx with ⟨da, _, rfl⟩
    rcases List.mem_map.mp hy with ⟨db, _, rfl⟩
    exact Or.inl hab

lemma riseThresh_lt {a b : ℕ} (h : a < b) : riseThresh a < riseThresh b := by
  unfold riseThresh
  have hc : (a : ℚ) < b := by exact_mod_cast h
  have : (0 : ℚ) < 5 / 1000 := by norm_num
  exact mul_lt_mul_of_pos_right hc this

lemma dropThresh_lt {a b : ℕ} (h : a < b) : dropThresh a < dropThresh b := by
  unfold dropThresh
  have hc : (a : ℚ) < b := by exact_mod_cast h
  have : (0 : ℚ) < 5 / 10000 := by norm_num
  exact mul_lt_mul_of_pos_right hc this

/-- C7: opt_params returns the maximum over all 2500 grid threshold pairs of
the cumulative return, the sum over i in the evaluation range of the realized
next-open-to-open return open[i+2] - open[i+1] when close[i] -
close[i-lookback] and close[i-1] - close[i] meet the thresholds and 0
otherwise; the returned long count equals the number of evaluation indices at
which both conditions hold for the returned best pair.  The hypothesis states
that some trial beats the -1.e60 sentinel record, which holds for any data
arising from log prices, and the lookback is at least 1 as the command-line
contract requires. -/
theorem opt_params_grid_max (ncases lookback : ℕ) (opn cls : ℕ → ℚ)
    (_hlb : 1 ≤ lookback)
    (hex : ∃ p ∈ gridPairs, -(10 ^ 60 : ℚ) < (gridTrial ncases lookback opn cls p).1) :
    (∀ p ∈ gridPairs,
      (gridTrial ncases lookback opn cls p).1 ≤ (opt_params ncases lookback opn cls).best) ∧
    (∃ p ∈ gridPairs,
      (opt_params ncases lookback opn cls).best = (gridTrial ncases lookback opn cls p).1 ∧
      (opt_params ncases lookback opn cls).opt_rise = riseThresh p.1 ∧
      (opt_params ncases lookback opn cls).opt_drop = dropThresh p.2 ∧
      (opt_params ncases lookback opn cls).nlong = (gridTrial ncases lookback opn cls p).2) ∧
    (opt_params ncases lookback opn cls).nlong =
      (trialReturn ncases lookback opn cls (opt_params ncases lookback opn cls).opt_rise
        (opt_params ncases lookback opn cls).opt_drop).2 := by
  obtain ⟨p0, hp0mem, hp0⟩ := hex
  rcases foldl_optStep_spec ncases lookback opn cls gridPairs ⟨-(10 ^ 60 : ℚ), 0, 0, 0⟩
    with ⟨heq, hle⟩ | ⟨l1, p, l2, hsplit, heq, hgt, hl1, hl2⟩
  · exact absurd (hle p0 hp0mem) (not_le.mpr hp0)
  · have hres : opt_params ncases lookback opn cls = mkRes ncases lookback opn cls p := heq
    have hpmem : p ∈ gridPairs := by
      rw [hsplit]
      exact List.mem_append_right _ (List.mem_cons_self _ _)
    refine ⟨?_, ⟨p, hpmem, by rw [hres]; rfl, by rw [hres]; rfl, by rw [hres]; rfl,
      by rw [hres]; rfl⟩, by rw [hres]; rfl⟩
    intro q hq
    rw [hres]
    rw [hsplit] at hq
    rcases List.mem_append.mp hq with h | h
    · exact le_of_lt (hl1 q h)
    · rcases List.mem_cons.mp h with h2 | h2
      · subst h2; exact le_refl _
      · exact hl2 q h2

/-- Witness for C7 on a concrete trivial data set on which every grid trial
returns 0 over an empty evaluation range. -/
theorem opt_params_grid_max_witness :
    (∀ p ∈ gridPairs,
      (gridTrial 3 1 (fun _ => 0) (fun _ => 0) p).1 ≤
        (opt_params 3 1 (fun _ => 0) (fun _ => 0)).best) ∧
    (∃ p ∈ gridPairs,
      (opt_params 3 1 (fun _ => 0) (fun _ => 0)).best =
        (gridTrial 3 1 (fun _ => 0) (fun _ => 0) p).1 ∧
      (opt_params 3 1 (fun _ => 0) (fun _ => 0)).opt_rise = riseThresh p.1 ∧
      (opt_params 3 1 (fun _ => 0) (fun _ => 0)).opt_drop = dropThresh p.2 ∧
      (opt_params 3 1 (fun _ => 0) (fun _ => 0)).nlong =
        (gridTrial 3 1 (fun _ => 0) (fun _ => 0) p).2) ∧
    (opt_params 3 1 (fun _ => 0) (fun _ => 0)).nlong =
      (trialReturn 3 1 (fun _ => 0) (fun _ => 0)
        (opt_params 3 1 (fun _ => 0) (fun _ => 0)).opt_rise
        (opt_params 3 1 (fun _ => 0) (fun _ => 0)).opt_drop).2 :=
  opt_params_grid_max 3 1 (fun _ => 0) (fun _ => 0) (by norm_num)
    ⟨(1, 1), by decide, by norm_num [gridTrial, trialReturn]⟩

/-- C4: when several grid pairs achieve the same maximal cumulative return,
opt_params returns the first maximizer in outer-rise-ascending,
inner-drop-ascending iteration order: the returned pair has the smallest
riseThreshold among maximizers and, among those with equal riseThreshold, the
smallest dropThreshold.  Hypotheses as for the grid-maximum theorem. -/
theorem opt_params_tie_break (ncases lookback : ℕ) (opn cls : ℕ → ℚ)
    (_hlb : 1 ≤ lookback)
    (hex : ∃ p ∈ gridPairs, -(10 ^ 60 : ℚ) < (gridTrial ncases lookback opn cls p).1) :
    ∃ p ∈ gridPairs,
      (opt_params ncases lookback opn cls).best = (gridTrial ncases lookback opn cls p).1 ∧
      (opt_params ncases lookback opn cls).opt_rise = riseThresh p.1 ∧
      (opt_params ncases lookback opn cls).opt_drop = dropThresh p.2 ∧
      ∀ q ∈ gridPairs,
        (gridTrial ncases lookback opn cls q).1 = (opt_params ncases lookback opn cls).best →
        ((opt_params ncases lookback opn cls).opt_rise < riseThresh q.1 ∨
          ((opt_params ncases lookback opn cls).opt_rise = riseThresh q.1 ∧
            (opt_params ncases lookback opn cls).opt_drop ≤ dropThresh q.2)) := by
  obtain ⟨p0, hp0mem, hp0⟩ := hex
  rcases foldl_optStep_spec ncases lookback opn cls gridPairs ⟨-(10 ^ 60 : ℚ), 0, 0, 0⟩
    with ⟨heq, hle⟩ | ⟨l1, p, l2, hsplit, heq, hgt, hl1, hl2⟩
  · exact absurd (hle p0 hp0mem) (not_le.mpr hp0)
  · have hres : opt_params ncases lookback opn cls = mkRes ncases lookback opn cls p := heq
    have hpmem : p ∈ gridPairs := by
      rw [hsplit]
      exact List.mem_append_right _ (List.mem_cons_self _ _)
    have hpw := gridPairs_pairwise
    rw [hsplit] at hpw
    have hl2pair : ∀ q ∈ l2, pairLT p q :=
      fun q hq => (List.pairwise_cons.mp (List.pairwise_append.mp hpw).2.1).1 q hq
    refine ⟨p, hpmem, by rw [hres]; rfl, by rw [hres]; rfl, by rw [hres]; rfl, ?_⟩
    intro q hq hmax
    rw [hres] at hmax
    rw [hsplit] at hq
    rw [hres]
    rcases List.mem_append.mp hq with h | h
    · exact absurd hmax (ne_of_lt (hl1 q h))
    · rcases List.mem_cons.mp h with h2 | h2
      · subst h2
        exact Or.inr ⟨rfl, le_refl _⟩
      · rcases hl2pair q h2 with hlt | ⟨heq1, hlt2⟩
        · exact Or.inl (riseThresh_lt hlt)
        · exact Or.inr ⟨by rw [← heq1]; rfl, le_of_lt (dropThresh_lt hlt2)⟩

/-- Witness for C4 on a concrete trivial data set on which all 2500 grid
trials tie at return 0, so the first-iterated pair must be returned. -/
theorem opt_params_tie_break_witness :
    ∃ p ∈ gridPairs,
      (opt_params 3 2 (fun _ => 0) (fun _ => 0)).best =
        (gridTrial 3 2 (fun _ => 0) (fun _ => 0) p).1 ∧
      (opt_params 3 2 (fun _ => 0) (fun _ => 0)).opt_rise = riseThresh p.1 ∧
      (opt_params 3 2 (fun _ => 0) (fun _ => 0)).opt_drop = dropThresh p.2 ∧
      ∀ q ∈ gridPairs,
        (gridTrial 3 2 (fun _ => 0) (fun _ => 0) q).1 =
          (opt_params 3 2 (fun _ => 0) (fun _ => 0)).best →
        ((opt_params 3 2 (fun _ => 0) (fun _ => 0)).opt_rise < riseThresh q.1 ∨
          ((opt_params 3 2 (fun _ => 0) (fun _ => 0)).opt_rise = riseThresh q.1 ∧
            (opt_params 3 2 (fun _ => 0) (fun _ => 0)).opt_drop ≤ dropThresh q.2)) :=
  opt_params_tie_break 3 2 (fun _ => 0) (fun _ => 0) (by norm_num)
    ⟨(1, 1), by decide, by norm_num [gridTrial, trialReturn]⟩

/-! ## MCPT driver (main, MCPT_BARS.CPP lines 444-518) -/

/-- Mutable state of the replication loop. -/
structure RunSt where
  window : List Bar
  rels : Rels
  original : ℚ
  count : ℕ
  mtb : ℚ
  returnsRev : List ℚ
  permCalls : ℕ

/-- Terminal quantities of the run (lines 505-518): the divisor of line 505 is
exposed as stored, and mean_training_bias uses the total-function rational
division standing in for the C double division. -/
structure MCPTSummary where
  original : ℚ
  count : ℕ
  sum_training_bias : ℚ
  mtb_divisor : ℤ
  mean_training_bias : ℚ
  pvalue : ℚ
  returns : List ℚ
  permCalls : ℕ

/-- Optimizer call of one replication (line 484): opt_params over the full
price arrays, where the window beyond the lookback prefix holds the possibly
permuted bars. -/
def repOpt (lookback ncases : ℕ) (pb : List Bar) (w : List Bar) : OptResult :=
  opt_params ncases lookback (fun i => ((pb ++ w).getD i default).bopen)
    (fun i => ((pb ++ w).getD i default).bclose)

/-- One iteration of the replication loop (lines 478-503): replication 0 is
the unpermuted baseline recording the original return with count 1;
every later replication first applies do_permute to the window, re-optimizes,
accumulates the training bias and counts a result at least as good as the
original.  The single global random stream of the program is abstracted as
one draw sequence per replication (jsr irep), a superset of the behaviors of
the real consecutively-consumed stream, which every theorem below quantifies
over. -/
def mcptStep (lookback ncases : ℕ) (pb : List Bar) (tpr : ℚ) (jsr : ℕ → ℕ → ℕ)
    (st : RunSt) (irep : ℕ) : RunSt :=
  if irep = 0 then
    let r := repOpt lookback ncases pb st.window
    ⟨st.window, st.rels, r.best, 1, 0, [r.best], st.permCalls⟩
  else
    let wr := do_permute (ncases - lookback) true st.window st.rels (jsr irep)
    let r := repOpt lookback ncases pb wr.1
    ⟨wr.1, wr.2, st.original, st.count + (if st.original ≤ r.best then 1 else 0),
      st.mtb + (r.best - (r.nlong : ℚ) * tpr), r.best :: st.returnsRev, st.permCalls + 1⟩

/-- The replication loop: prepare_permute once on the window past the
lookback, then fold the per-replication step over irep = 0 .. nreps-1. -/
def mcptFold (bars : List Bar) (lookback nreps : ℕ) (jsr : ℕ → ℕ → ℕ) : RunSt :=
  (List.range nreps).foldl
    (mcptStep lookback bars.length (bars.take lookback)
      (((bars.getD (bars.length - 1) default).bopen -
        (bars.getD (lookback + 1) default).bopen) / ((bars.length : ℚ) - lookback - 2))
      jsr)
    ⟨bars.drop lookback,
      prepare_permute ((bars.drop lookback).headD default).bclose (bars.drop lookback).tail,
      0, 0, 0, [], 0⟩

/-- The full MCPT run: the loop followed by the terminal summary computations
of lines 505-511 (mean_training_bias /= (nreps - 1); p-value count / nreps). -/
def mcptRun (bars : List Bar) (lookback nreps : ℕ) (jsr : ℕ → ℕ → ℕ) : MCPTSummary :=
  ⟨(mcptFold bars lookback nreps jsr).original,
    (mcptFold bars lookback nreps jsr).count,
    (mcptFold bars lookback nreps jsr).mtb,
    (nreps : ℤ) - 1,
    (mcptFold bars lookback nreps jsr).mtb / ((nreps : ℚ) - 1),
    ((mcptFold bars lookback nreps jsr).count : ℚ) / (nreps : ℚ),
    (mcptFold bars lookback nreps jsr).returnsRev.reverse,
    (mcptFold bars lookback nreps jsr).permCalls⟩

lemma mcptStep_ne (lookback ncases : ℕ) (pb : List Bar) (tpr : ℚ) (jsr : ℕ → ℕ → ℕ)
    (st : RunSt) (irep : ℕ) (hx : irep ≠ 0) :
    mcptStep lookback ncases pb tpr jsr st irep =
      ⟨(do_permute (ncases - lookback) true st.window st.rels (jsr irep)).1,
        (do_permute (ncases - lookback) true st.window st.rels (jsr irep)).2,
        st.original,
        st.count + (if st.original ≤ (repOpt lookback ncases pb
          (do_permute (ncases - lookback) true st.window st.rels (jsr irep)).1).best
          then 1 else 0),
        st.mtb + ((repOpt lookback ncases pb
          (do_permute (ncases - lookback) true st.window st.rels (jsr irep)).1).best -
          ((repOpt lookback ncases pb
            (do_permute (ncases - lookback) true st.window st.rels (jsr irep)).1).nlong : ℚ)
            * tpr),
        (repOpt lookback ncases pb
          (do_permute (ncases - lookback) true st.window st.rels (jsr irep)).1).best
          :: st.returnsRev,
        st.permCalls + 1⟩ := by
  unfold mcptStep
  rw [if_neg hx]

/-- Count and collected-returns invariant of the replication loop over the
permuted trials. -/
lemma mcpt_loop_inv (lookback ncases : ℕ) (pb : List Bar) (tpr : ℚ) (jsr : ℕ → ℕ → ℕ) :
    ∀ (l : List ℕ) (st : RunSt) (mids : List ℚ), (∀ x ∈ l, x ≠ 0) →
      st.returnsRev = mids ++ [st.original] →
      st.count = 1 + mids.countP (fun x => decide (st.original ≤ x)) →
      ∃ mids2 : List ℚ,
        (l.foldl (mcptStep lookback ncases pb tpr jsr) st).returnsRev =
          mids2 ++ [st.original] ∧
        (l.foldl (mcptStep lookback ncases pb tpr jsr) st).original = st.original ∧
        (l.foldl (mcptStep lookback ncases pb tpr jsr) st).count =
          1 + mids2.countP (fun x => decide (st.original ≤ x)) ∧
        mids2.length = mids.length + l.length
  | [], st, mids, _, h1, h2 => ⟨mids, h1, rfl, h2, by simp⟩
  | x :: rest, st, mids, hx, h1, h2 => by
    rw [List.foldl_cons]
    have hxne : x ≠ 0 := hx x (by simp)
    rw [mcptStep_ne lookback ncases pb tpr jsr st x hxne]
    set v := (repOpt lookback ncases pb
      (do_permute (ncases - lookback) true st.window st.rels (jsr x)).1).best with hv
    have hrec := mcpt_loop_inv lookback ncases pb tpr jsr rest
      ⟨(do_permute (ncases - lookback) true st.window st.rels (jsr x)).1,
        (do_permute (ncases - lookback) true st.window st.rels (jsr x)).2,
        st.original,
        st.count + (if st.original ≤ v then 1 else 0),
        st.mtb + (v - ((repOpt lookback ncases pb
          (do_permute (ncases - lookback) true st.window st.rels (jsr x)).1).nlong : ℚ) * tpr),
        v :: st.returnsRev, st.permCalls + 1⟩
      (v :: mids)
      (fun y hy => hx y (by simp [hy]))
      (by simp [h1])
      (by
        simp only [List.countP_cons]
        by_cases hvle : st.original ≤ v
        · simp [hvle, h2]
          omega
        · simp [hvle, h2])
    obtain ⟨mids2, g1, g2, g3, g4⟩ := hrec
    refine ⟨mids2, g1, g2, g3, ?_⟩
    rw [g4]
    simp
    omega

lemma mcptStep_zero (lookback ncases : ℕ) (pb : List Bar) (tpr : ℚ) (jsr : ℕ → ℕ → ℕ)
    (st : RunSt) :
    mcptStep lookback ncases pb tpr jsr st 0 =
      ⟨st.window, st.rels, (repOpt lookback ncases pb st.window).best, 1, 0,
        [(repOpt lookback ncases pb st.window).best], st.permCalls⟩ := by
  unfold mcptStep
  rw [if_pos rfl]

/-- C1: for every price list, lookback, draw streams and nreps of at least 1,
the reported p-value is exactly countAtLeastAsGood / nreps, where the count
starts at 1 for the baseline replication and is incremented once for every
permuted trial whose optimized return is at least the original return;
consequently the count is at least 1 and at most nreps, and the p-value lies
in (0, 1]. -/
theorem mcpt_pvalue_exact (bars : List Bar) (lookback nreps : ℕ) (jsr : ℕ → ℕ → ℕ)
    (hn : 1 ≤ nreps) :
    (mcptRun bars lookback nreps jsr).pvalue =
      ((mcptRun bars lookback nreps jsr).count : ℚ) / (nreps : ℚ) ∧
    (∃ mids : List ℚ,
      (mcptRun bars lookback nreps jsr).returns =
        (mcptRun bars lookback nreps jsr).original :: mids ∧
      mids.length = nreps - 1 ∧
      (mcptRun bars lookback nreps jsr).count =
        1 + mids.countP (fun x => decide ((mcptRun bars lookback nreps jsr).original ≤ x))) ∧
    1 ≤ (mcptRun bars lookback nreps jsr).count ∧
    (mcptRun bars lookback nreps jsr).count ≤ nreps ∧
    0 < (mcptRun bars lookback nreps jsr).pvalue ∧
    (mcptRun bars lookback nreps jsr).pvalue ≤ 1 := by
  obtain ⟨m, rfl⟩ : ∃ m, nreps = m + 1 := ⟨nreps - 1, by omega⟩
  have hfold : mcptFold bars lookback (m + 1) jsr =
      (List.map Nat.succ (List.range m)).foldl
        (mcptStep lookback bars.length (bars.take lookback)
          (((bars.getD (bars.length - 1) default).bopen -
            (bars.getD (lookback + 1) default).bopen) /
            ((bars.length : ℚ) - lookback - 2)) jsr)
        (mcptStep lookback bars.length (bars.take lookback)
          (((bars.getD (bars.length - 1) default).bopen -
            (bars.getD (lookback + 1) default).bopen) /
            ((bars.length : ℚ) - lookback - 2)) jsr
          ⟨bars.drop lookback,
            prepare_permute ((bars.drop lookback).headD default).bclose
              (bars.drop lookback).tail, 0, 0, 0, [], 0⟩ 0) := by
    rw [mcptFold, List.range_succ_eq_map, List.foldl_cons]
  rw [mcptStep_zero] at hfold
  dsimp only at hfold
  obtain ⟨A, hA⟩ : ∃ a : ℚ,
      (repOpt lookback bars.length (bars.take lookback) (bars.drop lookback)).best = a :=
    ⟨_, rfl⟩
  rw [hA] at hfold
  obtain ⟨mids2, g1, g2, g3, g4⟩ := mcpt_loop_inv lookback bars.length (bars.take lookback)
    (((bars.getD (bars.length - 1) default).bopen -
      (bars.getD (lookback + 1) default).bopen) / ((bars.length : ℚ) - lookback - 2)) jsr
    (List.map Nat.succ (List.range m))
    ⟨bars.drop lookback,
      prepare_permute ((bars.drop lookback).headD default).bclose (bars.drop lookback).tail,
      A, 1, 0, [A], 0⟩
    []
    (by simp)
    (by rw [List.nil_append])
    (by simp)
  dsimp only at g1 g2 g3 g4
  rw [← hfold] at g1 g2 g3
  have hcount : (mcptRun bars lookback (m + 1) jsr).count =
      (mcptFold bars lookback (m + 1) jsr).count := rfl
  have horig : (mcptRun bars lookback (m + 1) jsr).original =
      (mcptFold bars lookback (m + 1) jsr).original := rfl
  have hret : (mcptRun bars lookback (m + 1) jsr).returns =
      (mcptFold bars lookback (m + 1) jsr).returnsRev.reverse := rfl
  have hpv : (mcptRun bars lookback (m + 1) jsr).pvalue =
      ((mcptFold bars lookback (m + 1) jsr).count : ℚ) / ((m + 1 : ℕ) : ℚ) := rfl
  have hAo : (mcptRun bars lookback (m + 1) jsr).original = A := horig.trans g2
  have hclo : (mcptFold bars lookback (m + 1) jsr).count ≤ m + 1 := by
    rw [g3]
    have hle2 : mids2.countP (fun x => decide (A ≤ x)) ≤ mids2.length :=
      List.countP_le_length _
    simp at g4
    omega
  have hcge : 1 ≤ (mcptFold bars lookback (m + 1) jsr).count := by
    rw [g3]; omega
  refine ⟨hpv.trans (by rw [hcount]), ?_, ?_, ?_, ?_, ?_⟩
  · refine ⟨mids2.reverse, ?_, by simp; simpa using g4, ?_⟩
    · rw [hret, g1, hAo]
      simp
    · rw [hcount, g3, hAo]
      simp
  · rw [hcount]; exact hcge
  · rw [hcount]; exact hclo
  · rw [hpv]
    apply div_pos
    · exact_mod_cast hcge
    · exact_mod_cast Nat.succ_pos m
  · rw [hpv]
    rw [div_le_one (by exact_mod_cast Nat.succ_pos m)]
    exact_mod_cast hclo

/-- Witness for C1 at a concrete single-replication run. -/
theorem mcpt_pvalue_exact_witness :
    (mcptRun [] 0 1 (fun _ _ => 0)).pvalue =
      ((mcptRun [] 0 1 (fun _ _ => 0)).count : ℚ) / ((1 : ℕ) : ℚ) ∧
    (∃ mids : List ℚ,
      (mcptRun [] 0 1 (fun _ _ => 0)).returns =
        (mcptRun [] 0 1 (fun _ _ => 0)).original :: mids ∧
      mids.length = 1 - 1 ∧
      (mcptRun [] 0 1 (fun _ _ => 0)).count =
        1 + mids.countP (fun x => decide ((mcptRun [] 0 1 (fun _ _ => 0)).original ≤ x))) ∧
    1 ≤ (mcptRun [] 0 1 (fun _ _ => 0)).count ∧
    (mcptRun [] 0 1 (fun _ _ => 0)).count ≤ 1 ∧
    0 < (mcptRun [] 0 1 (fun _ _ => 0)).pvalue ∧
    (mcptRun [] 0 1 (fun _ _ => 0)).pvalue ≤ 1 :=
  mcpt_pvalue_exact [] 0 1 (fun _ _ => 0) (by norm_num)

lemma mcptRun_returns (bars : List Bar) (lookback nreps : ℕ) (jsr : ℕ → ℕ → ℕ) :
    (mcptRun bars lookback nreps jsr).returns =
      (mcptFold bars lookback nreps jsr).returnsRev.reverse := rfl

lemma mcptRun_original_eq (bars : List Bar) (lookback nreps : ℕ) (jsr : ℕ → ℕ → ℕ) :
    (mcptRun bars lookback nreps jsr).original =
      (mcptFold bars lookback nreps jsr).original := rfl

lemma mcptRun_permCalls (bars : List Bar) (lookback nreps : ℕ) (jsr : ℕ → ℕ → ℕ) :
    (mcptRun bars lookback nreps jsr).permCalls =
      (mcptFold bars lookback nreps jsr).permCalls := rfl

lemma mcptRun_mtb_divisor (bars : List Bar) (lookback nreps : ℕ) (jsr : ℕ → ℕ → ℕ) :
    (mcptRun bars lookback nreps jsr).mtb_divisor = (nreps : ℤ) - 1 := rfl

/-- C9: with numReplications = 1 the loop executes only the baseline
replication (no do_permute call, exactly one collected return), yet the
terminal computation of line 505 still divides the accumulated training bias
by nreps - 1 = 0 unconditionally: the divisor is 0, so the division by zero
IS reached rather than guarded or unreachable (in C this is the undefined
0.0 / 0 double division). -/
theorem mcpt_single_rep_division_by_zero :
    (mcptRun (List.replicate 11 ⟨1, 1, 1, 1⟩) 1 1 (fun _ _ => 0)).mtb_divisor = 0 ∧
    (mcptRun (List.replicate 11 ⟨1, 1, 1, 1⟩) 1 1 (fun _ _ => 0)).permCalls = 0 ∧
    (mcptRun (List.replicate 11 ⟨1, 1, 1, 1⟩) 1 1 (fun _ _ => 0)).returns =
      [(mcptRun (List.replicate 11 ⟨1, 1, 1, 1⟩) 1 1 (fun _ _ => 0)).original] := by
  have hf9 : mcptFold (List.replicate 11 ⟨1, 1, 1, 1⟩) 1 1 (fun _ _ => 0) =
      mcptStep 1 (List.replicate 11 (⟨1, 1, 1, 1⟩ : Bar)).length
        ((List.replicate 11 (⟨1, 1, 1, 1⟩ : Bar)).take 1)
        ((((List.replicate 11 (⟨1, 1, 1, 1⟩ : Bar)).getD
            ((List.replicate 11 (⟨1, 1, 1, 1⟩ : Bar)).length - 1) default).bopen -
          ((List.replicate 11 (⟨1, 1, 1, 1⟩ : Bar)).getD (1 + 1) default).bopen) /
          (((List.replicate 11 (⟨1, 1, 1, 1⟩ : Bar)).length : ℚ) - ((1 : ℕ) : ℚ) - 2))
        (fun _ _ => 0)
        ⟨(List.replicate 11 (⟨1, 1, 1, 1⟩ : Bar)).drop 1,
          prepare_permute (((List.replicate 11 (⟨1, 1, 1, 1⟩ : Bar)).drop 1).headD
            default).bclose ((List.replicate 11 (⟨1, 1, 1, 1⟩ : Bar)).drop 1).tail,
          0, 0, 0, [], 0⟩ 0 := by
    rw [mcptFold, show List.range 1 = [0] from rfl, List.foldl_cons, List.foldl_nil]
  rw [mcptStep_zero] at hf9
  dsimp only at hf9
  obtain ⟨A, hA⟩ : ∃ a : ℚ,
      (repOpt 1 (List.replicate 11 (⟨1, 1, 1, 1⟩ : Bar)).length
        ((List.replicate 11 (⟨1, 1, 1, 1⟩ : Bar)).take 1)
        ((List.replicate 11 (⟨1, 1, 1, 1⟩ : Bar)).drop 1)).best = a := ⟨_, rfl⟩
  rw [hA] at hf9
  refine ⟨?_, ?_, ?_⟩
  · rw [mcptRun_mtb_divisor]
    decide
  · rw [mcptRun_permCalls, hf9]
  · rw [mcptRun_returns, mcptRun_original_eq, hf9]
    dsimp only
    rw [List.reverse_cons, List.reverse_nil, List.nil_append]

end MCPTBars
